import Mathlib

/-!
Verification of the sliding-window minimum tracker (`Minimum` indicator).

The tracker stores the last `length` samples in a circular buffer `vec`,
keeps `min_index` pointing at the slot believed to hold the window
minimum, and `cur_index` pointing at the slot the next sample overwrites.

Samples are IEEE-754 doubles used only through the comparison `<`, so we
embed them as `FVal`: a rational payload plus the two infinities and the
not-a-number value, with comparisons that mirror IEEE semantics (every
comparison against not-a-number is false).
-/

/-- Embedded IEEE-754 double as used by the tracker: only the order
structure matters (the code performs no arithmetic on samples). -/
inductive FVal where
  | nan : FVal
  | ninf : FVal
  | val : ℚ → FVal
  | pinf : FVal
deriving DecidableEq, Repr

/-- IEEE `<` on embedded doubles: any comparison involving `nan` is
false; otherwise `ninf < val q < pinf` with rationals ordered as usual. -/
def FVal.lt : FVal → FVal → Bool
  | _, .nan => false
  | .nan, _ => false
  | .ninf, .ninf => false
  | .ninf, _ => true
  | _, .ninf => false
  | .val a, .val b => decide (a < b)
  | .val _, .pinf => true
  | .pinf, _ => false

/-- IEEE `<=` on embedded doubles: any comparison involving `nan` is
false; otherwise the reflexive closure of `FVal.lt`. -/
def FVal.le : FVal → FVal → Bool
  | _, .nan => false
  | .nan, _ => false
  | .ninf, _ => true
  | _, .ninf => false
  | .val a, .val b => decide (a ≤ b)
  | .val _, .pinf => true
  | .pinf, .pinf => true
  | .pinf, _ => false

theorem FVal.lt_irrefl (a : FVal) : FVal.lt a a = false := by
  cases a <;> simp [FVal.lt]

theorem FVal.lt_nan_left (b : FVal) : FVal.lt FVal.nan b = false := by
  cases b <;> simp [FVal.lt]

theorem FVal.ne_nan_left_of_lt {a b : FVal} (h : FVal.lt a b = true) : a ≠ FVal.nan := by
  cases a <;> cases b <;> simp_all [FVal.lt]

theorem FVal.ne_nan_right_of_lt {a b : FVal} (h : FVal.lt a b = true) : b ≠ FVal.nan := by
  cases a <;> cases b <;> simp_all [FVal.lt]

theorem FVal.lt_trans {a b c : FVal} (h1 : FVal.lt a b = true) (h2 : FVal.lt b c = true) :
    FVal.lt a c = true := by
  cases a <;> cases b <;> cases c <;> simp_all [FVal.lt] <;> exact h1.trans h2

theorem FVal.le_refl {a : FVal} (h : a ≠ FVal.nan) : FVal.le a a = true := by
  cases a <;> simp_all [FVal.le]

theorem FVal.le_trans {a b c : FVal} (h1 : FVal.le a b = true) (h2 : FVal.le b c = true) :
    FVal.le a c = true := by
  cases a <;> cases b <;> cases c <;> simp_all [FVal.le] <;> exact h1.trans h2

theorem FVal.le_of_lt {a b : FVal} (h : FVal.lt a b = true) : FVal.le a b = true := by
  cases a <;> cases b <;> simp_all [FVal.lt, FVal.le] <;> exact h.le

theorem FVal.le_of_not_lt {a b : FVal} (ha : a ≠ FVal.nan) (hb : b ≠ FVal.nan)
    (h : FVal.lt a b = false) : FVal.le b a = true := by
  cases a <;> cases b <;> simp_all [FVal.lt, FVal.le]

theorem FVal.lt_of_le_of_lt {a b c : FVal} (h1 : FVal.le a b = true) (h2 : FVal.lt b c = true) :
    FVal.lt a c = true := by
  cases a <;> cases b <;> cases c <;> simp_all [FVal.le, FVal.lt] <;> exact h1.trans_lt h2

theorem FVal.le_antisymm {a b : FVal} (h1 : FVal.le a b = true) (h2 : FVal.le b a = true) :
    a = b := by
  cases a <;> cases b <;> simp_all [FVal.le] <;> exact h1.antisymm h2

theorem FVal.le_pinf {a : FVal} (h : a ≠ FVal.nan) : FVal.le a FVal.pinf = true := by
  cases a <;> simp_all [FVal.le]

theorem FVal.eq_pinf_of_not_lt_pinf {a : FVal} (ha : a ≠ FVal.nan)
    (h : FVal.lt a FVal.pinf = false) : a = FVal.pinf := by
  cases a <;> simp_all [FVal.lt]

theorem FVal.ne_nan_left_of_le {a b : FVal} (h : FVal.le a b = true) : a ≠ FVal.nan := by
  cases a <;> cases b <;> simp_all [FVal.le]

/-- Shared error taxonomy of the hosting library (only the kind the
tracker can raise). -/
inductive ErrorKind where
  | InvalidParameter : ErrorKind
deriving DecidableEq, Repr

/-- State of the sliding-window minimum tracker (struct `Minimum`). -/
structure Minimum where
  length : Nat
  vec : List FVal
  min_index : Nat
  cur_index : Nat
deriving DecidableEq, Repr

/-- Constructor `Minimum::new`: rejects `length == 0` with `InvalidParameter`,
otherwise allocates `length` sentinel (`+inf`) slots with both indices
at 0. -/
def Minimum.new (length : Nat) : Except ErrorKind Minimum :=
  if length ≤ 0 then Except.error ErrorKind.InvalidParameter
  else Except.ok
    { length := length
      vec := List.replicate length FVal.pinf
      min_index := 0
      cur_index := 0 }

/-- Loop body of `Minimum::find_min_index`: scans the list carrying the
running position `i`, the champion value `min` and its index `index`,
returning the final `(index, min)` pair. -/
def findMinGo : List FVal → Nat → FVal → Nat → Nat × FVal
  | [], _, min, index => (index, min)
  | v :: rest, i, min, index =>
    if FVal.lt v min then findMinGo rest (i + 1) v i
    else findMinGo rest (i + 1) min index

/-- Rescan `Minimum::find_min_index`: full rescan of the buffer, starting from
champion `+inf` at index 0, taking a slot only on a strict win. -/
def Minimum.find_min_index (m : Minimum) : Nat :=
  (findMinGo m.vec 0 FVal.pinf 0).1

/-- Update `<Minimum as Next<f64>>::next`: write the sample at the cursor,
maintain `min_index` (rule 1: strict win; rule 2: expiry rescan;
rule 3: unchanged), advance the cursor cyclically, and return the value
at `min_index`. Out-of-range reads (impossible on reachable states, see
the bounds invariant) default to the sentinel. -/
def Minimum.next (m : Minimum) (input : FVal) : Minimum × FVal :=
  let vec := m.vec.set m.cur_index input
  let min_index :=
    if FVal.lt input (vec.getD m.min_index FVal.pinf) then m.cur_index
    else if m.min_index = m.cur_index then
      Minimum.find_min_index { m with vec := vec }
    else m.min_index
  let cur_index := if m.cur_index + 1 < m.length then m.cur_index + 1 else 0
  ({ m with vec := vec, min_index := min_index, cur_index := cur_index },
   vec.getD min_index FVal.pinf)

/-- A record type exposing a `low` accessor (trait `Low`). -/
class Low (α : Type) where
  low : α → FVal

/-- Update `<Minimum as Next<&T>>::next` for `T : Low`: project the record's
low field and delegate to the scalar update. -/
def Minimum.nextLow {α : Type} [Low α] (m : Minimum) (input : α) : Minimum × FVal :=
  m.next (Low.low input)

/-- Reset `<Minimum as Reset>::reset`: the loop `for i in 0..length` writing
the sentinel into every slot. The index fields are not touched. -/
def Minimum.reset (m : Minimum) : Minimum :=
  { m with vec := (List.range m.length).foldl (fun v i => v.set i FVal.pinf) m.vec }

/-- Default `<Minimum as Default>::default`: `Minimum::new(14).unwrap()`. -/
def Minimum.default : Minimum :=
  ((Minimum.new 14).toOption).get (by decide)

/-- Values returned by feeding the samples one at a time via `next`. -/
def runOutputs : Minimum → List FVal → List FVal
  | _, [] => []
  | m, x :: rest => (m.next x).2 :: runOutputs (m.next x).1 rest

/-- Tracker state after feeding the samples one at a time via `next`. -/
def runState : Minimum → List FVal → Minimum
  | m, [] => m
  | m, x :: rest => runState (m.next x).1 rest

/-- Binary minimum used by the brute-force reference (keeps the first
argument unless the second strictly wins, mirroring IEEE comparison). -/
def fmin (a b : FVal) : FVal := if FVal.lt b a then b else a

/-- Brute-force minimum of a list of samples, starting from the
sentinel `+inf`. -/
def bruteMin (l : List FVal) : FVal := l.foldl fmin FVal.pinf

/-- Brute-force reference: minimum over the actual window, i.e. the
last `min n k` of the `k` samples seen so far. -/
def windowMin (n : Nat) (seen : List FVal) : FVal := bruteMin (seen.reverse.take n)

/-! List access helpers used throughout. -/

theorem getD_set_self {l : List FVal} {i : Nat} {a d : FVal} (h : i < l.length) :
    (l.set i a).getD i d = a := by
  simp [List.getD, List.getElem?_set_self, h]

theorem getD_set_ne {l : List FVal} {i j : Nat} {a d : FVal} (h : i ≠ j) :
    (l.set i a).getD j d = l.getD j d := by
  simp [List.getD, List.getElem?_set_ne, h]

theorem getD_replicate {n j : Nat} {a d : FVal} (h : j < n) :
    (List.replicate n a).getD j d = a := by
  simp [List.getD, List.getElem?_replicate, h]

theorem getD_replicate_pinf {n p : Nat} :
    (List.replicate n FVal.pinf).getD p FVal.pinf = FVal.pinf := by
  by_cases h : p < n
  · exact getD_replicate h
  · simp [List.getD, List.getElem?_eq_none, Nat.le_of_not_lt, h]

theorem getD_take {l : List FVal} {n j : Nat} {d : FVal} (h : j < n) :
    (l.take n).getD j d = l.getD j d := by
  simp [List.getD, List.getElem?_take, h]

theorem list_eq_of_getD {l1 l2 : List FVal} (h : l1.length = l2.length)
    (h2 : ∀ i, i < l1.length → l1.getD i FVal.pinf = l2.getD i FVal.pinf) : l1 = l2 := by
  apply List.ext_getElem h
  intro i h1 hh2
  have := h2 i h1
  simpa [List.getD, List.getElem?_eq_getElem, h1, hh2] using this

/-- Position in the circular buffer of the sample written `j` steps
before the one the cursor `c` points at (so `j = 0` is the most
recently written slot), for a buffer of `n` slots. -/
def posOf (n c j : Nat) : Nat := if j < c then c - 1 - j else c + n - 1 - j

theorem posOf_lt {n c j : Nat} (hc : c < n) (hj : j < n) : posOf n c j < n := by
  unfold posOf; split <;> omega

theorem posOf_succ_zero {n c : Nat} (hc : c < n) :
    posOf n (if c + 1 < n then c + 1 else 0) 0 = c := by
  unfold posOf; split <;> split <;> omega

theorem posOf_succ_succ {n c j : Nat} (hc : c < n) (hj : j + 1 < n) :
    posOf n (if c + 1 < n then c + 1 else 0) (j + 1) = posOf n c j := by
  unfold posOf; split <;> split <;> split <;> omega

theorem posOf_ne_cur {n c j : Nat} (hc : c < n) (hj : j < n - 1) : posOf n c j ≠ c := by
  unfold posOf; split <;> omega

theorem posOf_surj {n c p : Nat} (hc : c < n) (hp : p < n) :
    ∃ j, j < n ∧ posOf n c j = p := by
  refine ⟨if p < c then c - 1 - p else c + n - 1 - p, ?_, ?_⟩
  · split <;> omega
  · unfold posOf; split <;> split <;> omega

/-! Lemmas about the reset loop. -/

theorem setRange_length (K : Nat) (v : List FVal) :
    ((List.range K).foldl (fun v i => v.set i FVal.pinf) v).length = v.length := by
  induction K generalizing v with
  | zero => rfl
  | succ k ih => simp [List.range_succ, List.foldl_append, ih]

theorem setRange_getD (K : Nat) (v : List FVal) (p : Nat) (hp : p < v.length) :
    ((List.range K).foldl (fun v i => v.set i FVal.pinf) v).getD p FVal.pinf =
      if p < K then FVal.pinf else v.getD p FVal.pinf := by
  induction K generalizing p with
  | zero => simp
  | succ k ih =>
    rw [List.range_succ, List.foldl_append]
    simp only [List.foldl_cons, List.foldl_nil]
    by_cases hpk : p = k
    · subst hpk
      rw [getD_set_self (by rw [setRange_length]; exact hp)]
      simp
    · rw [getD_set_ne (Ne.symm hpk), ih p hp]
      by_cases h2 : p < k
      · rw [if_pos h2, if_pos (by omega : p < k + 1)]
      · rw [if_neg h2, if_neg (by omega : ¬ p < k + 1)]

theorem Minimum.reset_vec {m : Minimum} (h : m.vec.length = m.length) :
    (m.reset).vec = List.replicate m.length FVal.pinf := by
  have hv : (m.reset).vec = (List.range m.length).foldl (fun v i => v.set i FVal.pinf) m.vec :=
    rfl
  rw [hv]
  apply list_eq_of_getD
  · rw [setRange_length, h, List.length_replicate]
  · intro i hi
    rw [setRange_length, h] at hi
    rw [setRange_getD m.length m.vec i (by omega), if_pos hi, getD_replicate hi]

/-! Lemmas about the rescan loop `findMinGo`. -/

theorem findMinGo_nan (l : List FVal) (i idx : Nat) :
    findMinGo l i FVal.nan idx = (idx, FVal.nan) := by
  induction l generalizing i with
  | nil => rfl
  | cons v rest ih =>
    have hv : FVal.lt v FVal.nan = false := by cases v <;> rfl
    simp [findMinGo, hv, ih]

theorem findMinGo_spec (l : List FVal) (i : Nat) (min0 : FVal) (idx : Nat) :
    ((findMinGo l i min0 idx).1 = idx ∧ (findMinGo l i min0 idx).2 = min0)
    ∨ ∃ j, j < l.length ∧ (findMinGo l i min0 idx).1 = i + j ∧
        l.getD j FVal.pinf = (findMinGo l i min0 idx).2 ∧
        FVal.lt (findMinGo l i min0 idx).2 min0 = true := by
  induction l generalizing i min0 idx with
  | nil => exact Or.inl ⟨rfl, rfl⟩
  | cons v rest ih =>
    by_cases hlt : FVal.lt v min0 = true
    · have hgo : findMinGo (v :: rest) i min0 idx = findMinGo rest (i + 1) v i := by
        simp [findMinGo, hlt]
      rw [hgo]
      rcases ih (i + 1) v i with ⟨h1, h2⟩ | ⟨j, hj, h1, h2, h3⟩
      · refine Or.inr ⟨0, by simp, by omega, ?_, ?_⟩
        · simpa [h2] using rfl
        · rw [h2]; exact hlt
      · refine Or.inr ⟨j + 1, by simpa using hj, by omega, ?_, ?_⟩
        · simpa using h2
        · exact FVal.lt_trans h3 hlt
    · have hgo : findMinGo (v :: rest) i min0 idx = findMinGo rest (i + 1) min0 idx := by
        simp [findMinGo, hlt]
      rw [hgo]
      rcases ih (i + 1) min0 idx with ⟨h1, h2⟩ | ⟨j, hj, h1, h2, h3⟩
      · exact Or.inl ⟨h1, h2⟩
      · exact Or.inr ⟨j + 1, by simpa using hj, by omega, by simpa using h2, h3⟩

theorem findMinGo_min (l : List FVal) (i : Nat) (min0 : FVal) (idx : Nat) :
    (∀ j, j < l.length → FVal.lt (l.getD j FVal.pinf) (findMinGo l i min0 idx).2 = false)
    ∧ FVal.lt min0 (findMinGo l i min0 idx).2 = false := by
  induction l generalizing i min0 idx with
  | nil => exact ⟨fun j hj => absurd hj (by simp), FVal.lt_irrefl min0⟩
  | cons v rest ih =>
    by_cases hlt : FVal.lt v min0 = true
    · have hgo : findMinGo (v :: rest) i min0 idx = findMinGo rest (i + 1) v i := by
        simp [findMinGo, hlt]
      rw [hgo]
      obtain ⟨iha, ihb⟩ := ih (i + 1) v i
      refine ⟨?_, ?_⟩
      · intro j hj
        match j with
        | 0 => simpa using ihb
        | j' + 1 => simpa using iha j' (by simpa using hj)
      · cases h : FVal.lt min0 (findMinGo rest (i + 1) v i).2 with
        | false => rfl
        | true => exact absurd (FVal.lt_trans hlt h) (by simp [ihb])
    · have hgo : findMinGo (v :: rest) i min0 idx = findMinGo rest (i + 1) min0 idx := by
        simp [findMinGo, hlt]
      rw [hgo]
      obtain ⟨iha, ihb⟩ := ih (i + 1) min0 idx
      refine ⟨?_, ihb⟩
      intro j hj
      match j with
      | 0 =>
        simp only [List.getD_cons_zero]
        by_cases hv : v = FVal.nan
        · subst hv; cases (findMinGo rest (i + 1) min0 idx).2 <;> rfl
        · by_cases hm : min0 = FVal.nan
          · subst hm
            rw [findMinGo_nan]
            cases v <;> rfl
          · cases h : FVal.lt v (findMinGo rest (i + 1) min0 idx).2 with
            | false => rfl
            | true =>
              have hle : FVal.le min0 v = true :=
                FVal.le_of_not_lt hv hm (by simpa using hlt)
              exact absurd (FVal.lt_of_le_of_lt hle h) (by simp [ihb])
      | j' + 1 => simpa using iha j' (by simpa using hj)

/-! Lemmas about the brute-force fold. -/

theorem foldl_fmin_le (l : List FVal) (b : FVal) (hb : b ≠ FVal.nan)
    (hl : ∀ j, j < l.length → l.getD j FVal.pinf ≠ FVal.nan) :
    FVal.le (l.foldl fmin b) b = true ∧
    ∀ j, j < l.length → FVal.le (l.foldl fmin b) (l.getD j FVal.pinf) = true := by
  induction l generalizing b with
  | nil => exact ⟨FVal.le_refl hb, fun j hj => absurd hj (by simp)⟩
  | cons v rest ih =>
    have hv : v ≠ FVal.nan := by simpa using hl 0 (by simp)
    have hb' : fmin b v ≠ FVal.nan := by
      unfold fmin; split <;> assumption
    have hrest : ∀ j, j < rest.length → rest.getD j FVal.pinf ≠ FVal.nan := by
      intro j hj; simpa using hl (j + 1) (by simpa using hj)
    obtain ⟨ih1, ih2⟩ := ih (fmin b v) hb' hrest
    have hfold : ((v :: rest).foldl fmin b) = rest.foldl fmin (fmin b v) := rfl
    have hmb : FVal.le (fmin b v) b = true := by
      unfold fmin; split
      · exact FVal.le_of_lt (by assumption)
      · exact FVal.le_refl hb
    have hmv : FVal.le (fmin b v) v = true := by
      unfold fmin; split
      · exact FVal.le_refl hv
      · next h => exact FVal.le_of_not_lt hv hb (by simpa using h)
    refine ⟨by rw [hfold]; exact FVal.le_trans ih1 hmb, ?_⟩
    intro j hj
    match j with
    | 0 => rw [hfold]; simpa using FVal.le_trans ih1 hmv
    | j' + 1 => rw [hfold]; simpa using ih2 j' (by simpa using hj)

theorem foldl_fmin_mem (l : List FVal) (b : FVal) :
    l.foldl fmin b = b ∨ ∃ j, j < l.length ∧ l.foldl fmin b = l.getD j FVal.pinf := by
  induction l generalizing b with
  | nil => exact Or.inl rfl
  | cons v rest ih =>
    have hfold : ((v :: rest).foldl fmin b) = rest.foldl fmin (fmin b v) := rfl
    rw [hfold]
    rcases ih (fmin b v) with h | ⟨j, hj, h⟩
    · rw [h]
      unfold fmin
      split
      · exact Or.inr ⟨0, by simp, by simp⟩
      · exact Or.inl rfl
    · exact Or.inr ⟨j + 1, by simpa using hj, by simpa using h⟩

theorem foldl_fmin_ge (l : List FVal) (b v : FVal) (hvb : FVal.le v b = true)
    (hl : ∀ j, j < l.length → FVal.le v (l.getD j FVal.pinf) = true) :
    FVal.le v (l.foldl fmin b) = true := by
  induction l generalizing b with
  | nil => exact hvb
  | cons e rest ih =>
    have hfold : ((e :: rest).foldl fmin b) = rest.foldl fmin (fmin b e) := rfl
    rw [hfold]
    apply ih (fmin b e)
    · unfold fmin; split
      · simpa using hl 0 (by simp)
      · exact hvb
    · intro j hj; simpa using hl (j + 1) (by simpa using hj)

/-! Invariants of the tracker state. -/

/-- Structural bounds every constructed tracker satisfies (any input,
not-a-number included): positive window, buffer of exactly `length`
slots, both indices strictly inside the buffer. -/
structure Bounds (m : Minimum) : Prop where
  len_pos : 1 ≤ m.length
  vlen : m.vec.length = m.length
  min_lt : m.min_index < m.length
  cur_lt : m.cur_index < m.length

/-- Semantic invariant on states reachable with non-NaN samples: the
bounds, a NaN-free buffer, and the slot at `min_index` being less than
or equal to every slot. -/
structure MinInv (m : Minimum) : Prop where
  bounds : Bounds m
  no_nan : ∀ i, i < m.length → m.vec.getD i FVal.pinf ≠ FVal.nan
  min_le : ∀ i, i < m.length →
    FVal.le (m.vec.getD m.min_index FVal.pinf) (m.vec.getD i FVal.pinf) = true

theorem next_length (m : Minimum) (x : FVal) : (m.next x).1.length = m.length := rfl

theorem next_vec (m : Minimum) (x : FVal) :
    (m.next x).1.vec = m.vec.set m.cur_index x := rfl

theorem next_cur (m : Minimum) (x : FVal) :
    (m.next x).1.cur_index = if m.cur_index + 1 < m.length then m.cur_index + 1 else 0 := rfl

theorem next_min (m : Minimum) (x : FVal) :
    (m.next x).1.min_index =
      if FVal.lt x ((m.vec.set m.cur_index x).getD m.min_index FVal.pinf) then m.cur_index
      else if m.min_index = m.cur_index then
        Minimum.find_min_index { m with vec := m.vec.set m.cur_index x }
      else m.min_index := rfl

theorem next_out_eq (m : Minimum) (x : FVal) :
    (m.next x).2 = (m.next x).1.vec.getD (m.next x).1.min_index FVal.pinf := rfl

theorem find_min_index_lt (m : Minimum) (h : 1 ≤ m.vec.length) :
    m.find_min_index < m.vec.length := by
  unfold Minimum.find_min_index
  rcases findMinGo_spec m.vec 0 FVal.pinf 0 with ⟨h1, _⟩ | ⟨j, hj, h1, _, _⟩
  · omega
  · omega

theorem next_bounds {m : Minimum} (hB : Bounds m) (x : FVal) : Bounds (m.next x).1 := by
  obtain ⟨hlen, hvlen, hmin, hcur⟩ := hB
  refine ⟨?_, ?_, ?_, ?_⟩
  · rw [next_length]; exact hlen
  · rw [next_vec, next_length, List.length_set]; exact hvlen
  · rw [next_min, next_length]
    split
    · exact hcur
    · split
      · have : ({ m with vec := m.vec.set m.cur_index x } : Minimum).vec.length = m.length := by
          simpa [List.length_set] using hvlen
        have := find_min_index_lt { m with vec := m.vec.set m.cur_index x } (by omega)
        omega
      · exact hmin
  · rw [next_cur, next_length]
    split <;> omega

theorem next_inv {m : Minimum} (hI : MinInv m) {x : FVal} (hx : x ≠ FVal.nan) :
    MinInv (m.next x).1 := by
  obtain ⟨hB, hnn, hle⟩ := hI
  obtain ⟨hlen, hvlen, hmin, hcur⟩ := hB
  have hcur' : m.cur_index < m.vec.length := by omega
  have hmin' : m.min_index < m.vec.length := by omega
  refine ⟨next_bounds ⟨hlen, hvlen, hmin, hcur⟩ x, ?_, ?_⟩
  · intro i hi
    rw [next_length] at hi
    rw [next_vec]
    by_cases hic : m.cur_index = i
    · subst hic; rw [getD_set_self hcur']; exact hx
    · rw [getD_set_ne hic]; exact hnn i hi
  · intro i hi
    rw [next_length] at hi
    rw [next_vec, next_min]
    split
    · next h1 =>
      -- rule 1: the new sample strictly beats the incumbent minimum
      have hne : m.min_index ≠ m.cur_index := by
        intro heq
        rw [heq, getD_set_self hcur', FVal.lt_irrefl] at h1
        exact absurd h1 (by simp)
      rw [getD_set_ne (fun h => hne h.symm)] at h1
      rw [getD_set_self hcur']
      by_cases hic : m.cur_index = i
      · subst hic; rw [getD_set_self hcur']; exact FVal.le_refl hx
      · rw [getD_set_ne hic]
        exact FVal.le_trans (FVal.le_of_lt h1) (hle i hi)
    · next h1 =>
      split
      · -- rule 2: the incumbent minimum expired, full rescan
        set vec2 := m.vec.set m.cur_index x with hvec2
        have hvlen2 : vec2.length = m.length := by
          rw [hvec2, List.length_set]; exact hvlen
        have hnn2 : ∀ p, p < vec2.length → vec2.getD p FVal.pinf ≠ FVal.nan := by
          intro p hp
          rw [hvlen2] at hp
          rw [hvec2]
          by_cases hpc : m.cur_index = p
          · subst hpc; rw [getD_set_self hcur']; exact hx
          · rw [getD_set_ne hpc]; exact hnn p hp
        have hfm : Minimum.find_min_index { m with vec := vec2 } =
            (findMinGo vec2 0 FVal.pinf 0).1 := rfl
        rw [hfm]
        rcases findMinGo_spec vec2 0 FVal.pinf 0 with ⟨h1, h2⟩ | ⟨j, hj, h1, h2, h3⟩
        · -- the champion never moved: every slot is the sentinel
          have hall : ∀ p, p < vec2.length → vec2.getD p FVal.pinf = FVal.pinf := by
            intro p hp
            have := (findMinGo_min vec2 0 FVal.pinf 0).1 p hp
            rw [h2] at this
            exact FVal.eq_pinf_of_not_lt_pinf (hnn2 p hp) this
          rw [h1]
          rw [hall 0 (by omega), hall i (by omega)]
          rfl
        · have hchamp : vec2.getD (findMinGo vec2 0 FVal.pinf 0).1 FVal.pinf =
              (findMinGo vec2 0 FVal.pinf 0).2 := by
            rw [h1]; simpa using h2
          rw [hchamp]
          have hnolt := (findMinGo_min vec2 0 FVal.pinf 0).1 i (by omega)
          exact FVal.le_of_not_lt (hnn2 i (by omega))
            (FVal.ne_nan_left_of_lt h3) hnolt
      · next h2 =>
        -- rule 3: incumbent minimum survives
        have h1f : FVal.lt x ((m.vec.set m.cur_index x).getD m.min_index FVal.pinf) = false := by
          simpa using h1
        rw [getD_set_ne (fun h => h2 h.symm)] at h1f ⊢
        by_cases hic : m.cur_index = i
        · subst hic
          rw [getD_set_self hcur']
          exact FVal.le_of_not_lt hx (hnn m.min_index hmin) h1f
        · rw [getD_set_ne hic]
          exact hle i hi

/-! Characterization of the buffer contents relative to the history. -/

/-- Window characterization: slot `posOf length cur_index j` holds the
j-th most recent of the `seen` samples for `j < min length seen.length`,
and the sentinel for `seen.length ≤ j < length`. -/
def Window (m : Minimum) (seen : List FVal) : Prop :=
  (∀ j, j < m.length → j < seen.length →
      m.vec.getD (posOf m.length m.cur_index j) FVal.pinf = seen.reverse.getD j FVal.pinf)
  ∧ (∀ j, seen.length ≤ j → j < m.length →
      m.vec.getD (posOf m.length m.cur_index j) FVal.pinf = FVal.pinf)

theorem window_allpinf {m : Minimum} (h : m.vec = List.replicate m.length FVal.pinf) :
    Window m [] := by
  constructor
  · intro j _ hj2
    exact absurd hj2 (by simp)
  · intro j _ _
    rw [h, getD_replicate_pinf]

theorem next_window {m : Minimum} (hB : Bounds m) {seen : List FVal} (hW : Window m seen)
    (x : FVal) : Window (m.next x).1 (seen ++ [x]) := by
  obtain ⟨hlen, hvlen, hmin, hcur⟩ := hB
  obtain ⟨hA, hP⟩ := hW
  have hcur' : m.cur_index < m.vec.length := by omega
  have hrev : (seen ++ [x]).reverse = x :: seen.reverse := by simp
  constructor
  · intro j hj hj2
    rw [next_length] at hj
    rw [next_vec, next_length, next_cur, hrev]
    match j with
    | 0 =>
      rw [posOf_succ_zero hcur, getD_set_self hcur']
      simp
    | j' + 1 =>
      rw [posOf_succ_succ hcur hj,
        getD_set_ne (fun hc => posOf_ne_cur hcur (by omega) hc.symm)]
      have hj2' : j' < seen.length := by
        simp at hj2
        omega
      rw [hA j' (by omega) hj2']
      simp
  · intro j hj1 hj2
    rw [next_length] at hj2
    rw [List.length_append] at hj1
    rw [next_vec, next_length, next_cur]
    match j with
    | 0 => exact absurd hj1 (by simp)
    | j' + 1 =>
      rw [posOf_succ_succ hcur hj2,
        getD_set_ne (fun hc => posOf_ne_cur hcur (by omega) hc.symm)]
      exact hP j' (by simpa using hj1) (by omega)

/-- Core correctness: on a state satisfying the invariant together with
the window characterization, the slot at `min_index` holds exactly the
brute-force minimum over the actual window. -/
theorem min_slot_eq_windowMin {m : Minimum} (hI : MinInv m) {seen : List FVal}
    (hW : Window m seen) :
    m.vec.getD m.min_index FVal.pinf = windowMin m.length seen := by
  obtain ⟨⟨hlen, hvlen, hmin, hcur⟩, hnn, hle⟩ := hI
  obtain ⟨hA, hP⟩ := hW
  have hwlen : (seen.reverse.take m.length).length = min m.length seen.length := by
    simp
  have hweq : ∀ j, j < (seen.reverse.take m.length).length →
      (seen.reverse.take m.length).getD j FVal.pinf =
        m.vec.getD (posOf m.length m.cur_index j) FVal.pinf := by
    intro j hj
    rw [hwlen] at hj
    rw [getD_take (by omega), hA j (by omega) (by omega)]
  have hwnn : ∀ j, j < (seen.reverse.take m.length).length →
      (seen.reverse.take m.length).getD j FVal.pinf ≠ FVal.nan := by
    intro j hj
    rw [hweq j hj]
    exact hnn _ (posOf_lt hcur (by rw [hwlen] at hj; omega))
  have hminnan : m.vec.getD m.min_index FVal.pinf ≠ FVal.nan := hnn m.min_index hmin
  apply FVal.le_antisymm
  · -- the tracked slot is below the brute-force minimum
    apply foldl_fmin_ge
    · exact FVal.le_pinf hminnan
    · intro j hj
      rw [hweq j hj]
      exact hle _ (posOf_lt hcur (by rw [hwlen] at hj; omega))
  · -- the brute-force minimum is below the tracked slot
    obtain ⟨j, hj, hpos⟩ := posOf_surj hcur hmin
    obtain ⟨hfold1, hfold2⟩ := foldl_fmin_le (seen.reverse.take m.length) FVal.pinf
      (by simp) hwnn
    by_cases hjs : j < seen.length
    · have : m.vec.getD m.min_index FVal.pinf = (seen.reverse.take m.length).getD j FVal.pinf := by
        rw [getD_take hj, ← hpos]
        exact hA j hj hjs
      rw [this]
      exact hfold2 j (by omega)
    · have : m.vec.getD m.min_index FVal.pinf = FVal.pinf := by
        rw [← hpos]
        exact hP j (by omega) hj
      rw [this]
      exact hfold1

theorem next_out {m : Minimum} (hI : MinInv m) {seen : List FVal} (hW : Window m seen)
    {x : FVal} (hx : x ≠ FVal.nan) :
    (m.next x).2 = windowMin m.length (seen ++ [x]) := by
  rw [next_out_eq]
  have := min_slot_eq_windowMin (next_inv hI hx) (next_window hI.bounds hW x)
  rw [next_length] at this
  exact this

/-- Main run lemma: starting from any state satisfying the invariant and
the window characterization for some past history `seen`, every output
of the run equals the brute-force window minimum of the history so far. -/
theorem run_spec (samples : List FVal) :
    ∀ (m : Minimum) (seen : List FVal), MinInv m → Window m seen →
    (∀ s ∈ samples, s ≠ FVal.nan) → ∀ k, k < samples.length →
      (runOutputs m samples).getD k FVal.pinf =
        windowMin m.length (seen ++ samples.take (k + 1)) := by
  induction samples with
  | nil =>
    intro m seen _ _ _ k hk
    exact absurd hk (by simp)
  | cons x rest ih =>
    intro m seen hI hW hs k hk
    have hx : x ≠ FVal.nan := hs x (by simp)
    match k with
    | 0 =>
      show (m.next x).2 = _
      rw [next_out hI hW hx]
      simp
    | k' + 1 =>
      show (runOutputs (m.next x).1 rest).getD k' FVal.pinf = _
      have hrest : ∀ s ∈ rest, s ≠ FVal.nan := fun s hsm => hs s (by simp [hsm])
      have := ih (m.next x).1 (seen ++ [x]) (next_inv hI hx) (next_window hI.bounds hW x)
        hrest k' (by simpa using hk)
      rw [next_length] at this
      rw [this]
      congr 1
      simp

/-! Reachable states. -/

theorem reset_length (m : Minimum) : (m.reset).length = m.length := rfl

theorem reset_min_index (m : Minimum) : (m.reset).min_index = m.min_index := rfl

theorem reset_cur_index (m : Minimum) : (m.reset).cur_index = m.cur_index := rfl

/-- States reachable from construction through any sequence of updates
(not-a-number inputs included) and resets. -/
inductive Reachable : Minimum → Prop where
  | new : ∀ (n : Nat) (m : Minimum), Minimum.new n = Except.ok m → Reachable m
  | next : ∀ (m : Minimum) (x : FVal), Reachable m → Reachable (m.next x).1
  | reset : ∀ (m : Minimum), Reachable m → Reachable m.reset

/-- States reachable from construction through updates with non-NaN
samples and resets. -/
inductive ReachableNN : Minimum → Prop where
  | new : ∀ (n : Nat) (m : Minimum), Minimum.new n = Except.ok m → ReachableNN m
  | next : ∀ (m : Minimum) (x : FVal), ReachableNN m → x ≠ FVal.nan → ReachableNN (m.next x).1
  | reset : ∀ (m : Minimum), ReachableNN m → ReachableNN m.reset

theorem new_ok {n : Nat} {m : Minimum} (h : Minimum.new n = Except.ok m) :
    1 ≤ n ∧ m = ⟨n, List.replicate n FVal.pinf, 0, 0⟩ := by
  unfold Minimum.new at h
  split at h
  · exact absurd h (by simp)
  · next hn =>
    simp only [Except.ok.injEq] at h
    exact ⟨by omega, h.symm⟩

theorem new_bounds {n : Nat} {m : Minimum} (h : Minimum.new n = Except.ok m) : Bounds m := by
  obtain ⟨hn, hm⟩ := new_ok h
  subst hm
  exact ⟨hn, by simp, by simpa using hn, by simpa using hn⟩

theorem reset_bounds {m : Minimum} (hB : Bounds m) : Bounds m.reset := by
  obtain ⟨hlen, hvlen, hmin, hcur⟩ := hB
  refine ⟨hlen, ?_, hmin, hcur⟩
  show ((List.range m.length).foldl (fun v i => v.set i FVal.pinf) m.vec).length = _
  rw [setRange_length]
  exact hvlen

theorem reachable_bounds {m : Minimum} (h : Reachable m) : Bounds m := by
  induction h with
  | new n m hm => exact new_bounds hm
  | next m x _ ih => exact next_bounds ih x
  | reset m _ ih => exact reset_bounds ih

theorem reset_inv_of_bounds {m : Minimum} (hB : Bounds m) : MinInv m.reset := by
  have hrv : (m.reset).vec = List.replicate m.length FVal.pinf := Minimum.reset_vec hB.vlen
  refine ⟨reset_bounds hB, ?_, ?_⟩
  · intro i _
    rw [hrv, getD_replicate_pinf]
    simp
  · intro i _
    rw [hrv, getD_replicate_pinf, getD_replicate_pinf]
    rfl

theorem new_inv {n : Nat} {m : Minimum} (h : Minimum.new n = Except.ok m) : MinInv m := by
  obtain ⟨hn, hm⟩ := new_ok h
  refine ⟨new_bounds h, ?_, ?_⟩
  · intro i _
    subst hm
    show (List.replicate n FVal.pinf).getD i FVal.pinf ≠ FVal.nan
    rw [getD_replicate_pinf]
    simp
  · intro i _
    subst hm
    show ((List.replicate n FVal.pinf).getD 0 FVal.pinf).le
      ((List.replicate n FVal.pinf).getD i FVal.pinf) = true
    rw [getD_replicate_pinf, getD_replicate_pinf]
    rfl

theorem reachableNN_inv {m : Minimum} (h : ReachableNN m) : MinInv m := by
  induction h with
  | new n m hm => exact new_inv hm
  | next m x _ hx ih => exact next_inv ih hx
  | reset m _ ih => exact reset_inv_of_bounds ih.bounds

theorem new_window {n : Nat} {m : Minimum} (h : Minimum.new n = Except.ok m) : Window m [] := by
  obtain ⟨hn, hm⟩ := new_ok h
  subst hm
  exact window_allpinf rfl

theorem reachable_runState {m : Minimum} (h : Reachable m) (l : List FVal) :
    Reachable (runState m l) := by
  induction l generalizing m with
  | nil => exact h
  | cons x rest ih => exact ih (Reachable.next m x h)

theorem runOutputs_length (m : Minimum) (l : List FVal) :
    (runOutputs m l).length = l.length := by
  induction l generalizing m with
  | nil => rfl
  | cons x rest ih => simpa [runOutputs] using ih (m.next x).1

/-! Claim theorems. -/

/-- Claim C1: for every window length at least 1 and every finite
sequence of non-NaN samples fed one at a time via `next`, the value
returned by each call equals the brute-force minimum over the actual
window, i.e. the minimum of the last `min length k` samples after the
k-th call. -/
theorem C1_next_returns_window_minimum (n : Nat) (hn : 1 ≤ n) (m0 : Minimum)
    (h0 : Minimum.new n = Except.ok m0) (samples : List FVal)
    (hs : ∀ s ∈ samples, s ≠ FVal.nan) (k : Nat) (hk : k < samples.length) :
    (runOutputs m0 samples).getD k FVal.pinf = windowMin n (samples.take (k + 1)) := by
  have hlen : m0.length = n := by
    obtain ⟨_, hm⟩ := new_ok h0
    subst hm
    rfl
  have := run_spec samples m0 [] (new_inv h0) (new_window h0) hs k hk
  rw [hlen] at this
  simpa using this

theorem C1_witness :
    Minimum.new 2 = Except.ok (⟨2, [FVal.pinf, FVal.pinf], 0, 0⟩ : Minimum) ∧
    (runOutputs ⟨2, [FVal.pinf, FVal.pinf], 0, 0⟩
        [FVal.val 3, FVal.val 1, FVal.val 2]).getD 2 FVal.pinf
      = windowMin 2 ([FVal.val 3, FVal.val 1, FVal.val 2].take 3) :=
  ⟨rfl, C1_next_returns_window_minimum 2 (by decide)
    ⟨2, [FVal.pinf, FVal.pinf], 0, 0⟩ rfl
    [FVal.val 3, FVal.val 1, FVal.val 2] (by decide) 2 (by decide)⟩

/-- Claim C2 counterexample: after feeding 9, 1, 5, 1 to a fresh
length-3 tracker (a reachable state), slots 0 and 1 both hold the
smallest value 1, yet `min_index` is 1 — not the smallest such buffer
index 0, contradicting the tie-breaking part of the claim. -/
theorem C2_counterexample :
    Reachable (runState ⟨3, [FVal.pinf, FVal.pinf, FVal.pinf], 0, 0⟩
      [FVal.val 9, FVal.val 1, FVal.val 5, FVal.val 1]) ∧
    (runState ⟨3, [FVal.pinf, FVal.pinf, FVal.pinf], 0, 0⟩
      [FVal.val 9, FVal.val 1, FVal.val 5, FVal.val 1]).vec
      = [FVal.val 1, FVal.val 1, FVal.val 5] ∧
    (runState ⟨3, [FVal.pinf, FVal.pinf, FVal.pinf], 0, 0⟩
      [FVal.val 9, FVal.val 1, FVal.val 5, FVal.val 1]).min_index = 1 :=
  ⟨reachable_runState (Reachable.new 3 ⟨3, [FVal.pinf, FVal.pinf, FVal.pinf], 0, 0⟩
    rfl) _, by decide, by decide⟩

/-- Claim C2 (amended): after every update with non-NaN samples the
slot at `min_index` is less than or equal to every buffer slot
(`buffer[min_index] <= buffer[i]` for every `i < length`); when several
slots tie for the smallest value, `min_index` holds one of them but
need not be the smallest such index. -/
theorem C2_amended_min_slot_le (m : Minimum) (h : ReachableNN m) (i : Nat)
    (hi : i < m.length) :
    FVal.le (m.vec.getD m.min_index FVal.pinf) (m.vec.getD i FVal.pinf) = true :=
  (reachableNN_inv h).min_le i hi

theorem C2_witness :
    FVal.le ((runState ⟨2, [FVal.pinf, FVal.pinf], 0, 0⟩ [FVal.val 5]).vec.getD
        (runState ⟨2, [FVal.pinf, FVal.pinf], 0, 0⟩ [FVal.val 5]).min_index FVal.pinf)
      ((runState ⟨2, [FVal.pinf, FVal.pinf], 0, 0⟩ [FVal.val 5]).vec.getD 1 FVal.pinf)
      = true :=
  C2_amended_min_slot_le _
    (ReachableNN.next _ _ (ReachableNN.new 2 ⟨2, [FVal.pinf, FVal.pinf], 0, 0⟩ rfl)
      (by decide)) 1 (by decide)

/-- Claim C3 counterexample: feeding a single NaN sample to a fresh
length-2 tracker makes the rescan select slot 0, which holds NaN, and
`next` returns NaN even though an update has occurred. -/
theorem C3_counterexample :
    (Minimum.next ⟨2, [FVal.pinf, FVal.pinf], 0, 0⟩ FVal.nan).2 = FVal.nan ∧
    (Minimum.next ⟨2, [FVal.pinf, FVal.pinf], 0, 0⟩ FVal.nan).1.min_index = 0 ∧
    (Minimum.next ⟨2, [FVal.pinf, FVal.pinf], 0, 0⟩ FVal.nan).1.vec.getD 0 FVal.pinf
      = FVal.nan ∧
    Minimum.find_min_index (Minimum.next ⟨2, [FVal.pinf, FVal.pinf], 0, 0⟩ FVal.nan).1
      = 0 := by
  decide

/-- Claim C3 (amended): a NaN sample never becomes the tracked minimum
through rule 1 (its strict comparison is always false), and the rescan
returns a NaN-holding slot only as the untouched default index 0 when
no slot compares strictly below the sentinel: whenever some slot holds
a value strictly below +infinity, the slot the rescan selects is not
NaN. -/
theorem C3_amended_rescan (x : FVal) (m : Minimum) (j : Nat) (hj : j < m.vec.length)
    (hlt : FVal.lt (m.vec.getD j FVal.pinf) FVal.pinf = true) :
    FVal.lt FVal.nan x = false ∧
    m.vec.getD m.find_min_index FVal.pinf ≠ FVal.nan := by
  refine ⟨FVal.lt_nan_left x, ?_⟩
  unfold Minimum.find_min_index
  rcases findMinGo_spec m.vec 0 FVal.pinf 0 with ⟨h1, h2⟩ | ⟨j', hj', h1, h2, h3⟩
  · have hmin := (findMinGo_min m.vec 0 FVal.pinf 0).1 j hj
    rw [h2] at hmin
    rw [hmin] at hlt
    exact absurd hlt (by simp)
  · rw [h1]
    have hval : m.vec.getD (0 + j') FVal.pinf = (findMinGo m.vec 0 FVal.pinf 0).2 := by
      simpa using h2
    rw [hval]
    exact FVal.ne_nan_left_of_lt h3

theorem C3_witness :
    FVal.lt FVal.nan (FVal.val 7) = false ∧
    (⟨2, [FVal.val 3, FVal.nan], 0, 0⟩ : Minimum).vec.getD
      (Minimum.find_min_index ⟨2, [FVal.val 3, FVal.nan], 0, 0⟩) FVal.pinf ≠ FVal.nan :=
  C3_amended_rescan (FVal.val 7) ⟨2, [FVal.val 3, FVal.nan], 0, 0⟩ 0 (by decide) (by decide)

/-- Claim C4 counterexample: on the reachable state obtained by feeding
one sample to a fresh length-2 tracker, `reset` leaves the cursor at 1
instead of restoring it to 0. -/
theorem C4_counterexample :
    Reachable (Minimum.next ⟨2, [FVal.pinf, FVal.pinf], 0, 0⟩ (FVal.val 5)).1 ∧
    ((Minimum.next ⟨2, [FVal.pinf, FVal.pinf], 0, 0⟩ (FVal.val 5)).1.reset).cur_index = 1 :=
  ⟨Reachable.next _ _ (Reachable.new 2 ⟨2, [FVal.pinf, FVal.pinf], 0, 0⟩ rfl),
    by decide⟩

/-- Claim C4 (amended): for every reachable state, `reset()` restores
every buffer slot to the sentinel +infinity, takes no inputs and never
fails — but it leaves `min_index`, `cur_index` and `length` unchanged
instead of zeroing the indices. -/
theorem C4_amended_reset (m : Minimum) (h : Reachable m) :
    (m.reset).vec = List.replicate m.length FVal.pinf ∧
    (m.reset).min_index = m.min_index ∧
    (m.reset).cur_index = m.cur_index ∧
    (m.reset).length = m.length :=
  ⟨Minimum.reset_vec (reachable_bounds h).vlen, rfl, rfl, rfl⟩

theorem C4_witness :
    ((⟨2, [FVal.pinf, FVal.pinf], 0, 0⟩ : Minimum).reset).vec
      = List.replicate 2 FVal.pinf ∧
    ((⟨2, [FVal.pinf, FVal.pinf], 0, 0⟩ : Minimum).reset).min_index = 0 ∧
    ((⟨2, [FVal.pinf, FVal.pinf], 0, 0⟩ : Minimum).reset).cur_index = 0 ∧
    ((⟨2, [FVal.pinf, FVal.pinf], 0, 0⟩ : Minimum).reset).length = 2 :=
  C4_amended_reset ⟨2, [FVal.pinf, FVal.pinf], 0, 0⟩
    (Reachable.new 2 ⟨2, [FVal.pinf, FVal.pinf], 0, 0⟩ rfl)

/-- Claim C5 counterexample: take the reachable length-2 state after
one sample 1, reset it, and feed the sequence consisting of one NaN:
the run returns +infinity, while a freshly constructed length-2 tracker
fed the same sequence returns NaN. -/
theorem C5_counterexample :
    Reachable (runState ⟨2, [FVal.pinf, FVal.pinf], 0, 0⟩ [FVal.val 1]) ∧
    Minimum.new 2 = Except.ok (⟨2, [FVal.pinf, FVal.pinf], 0, 0⟩ : Minimum) ∧
    runOutputs ((runState ⟨2, [FVal.pinf, FVal.pinf], 0, 0⟩ [FVal.val 1]).reset) [FVal.nan]
      ≠ runOutputs ⟨2, [FVal.pinf, FVal.pinf], 0, 0⟩ [FVal.nan] :=
  ⟨reachable_runState (Reachable.new 2 ⟨2, [FVal.pinf, FVal.pinf], 0, 0⟩ rfl) _,
    rfl, by decide⟩

/-- Claim C5 (amended): restricted to non-NaN sample sequences: for
every reachable state, resetting and then feeding the samples produces
exactly the outputs of a freshly constructed tracker of the same
length fed the same samples. (With NaN samples the runs can differ,
because reset leaves the indices untouched.) -/
theorem C5_amended_reset_replay (m : Minimum) (h : Reachable m) (m0 : Minimum)
    (h0 : Minimum.new m.length = Except.ok m0) (samples : List FVal)
    (hs : ∀ s ∈ samples, s ≠ FVal.nan) :
    runOutputs (m.reset) samples = runOutputs m0 samples := by
  have hB := reachable_bounds h
  have hIr : MinInv m.reset := reset_inv_of_bounds hB
  have hWr : Window m.reset [] := window_allpinf (Minimum.reset_vec hB.vlen)
  have hI0 : MinInv m0 := new_inv h0
  have hW0 : Window m0 [] := new_window h0
  have hlen0 : m0.length = m.length := by
    obtain ⟨_, hm⟩ := new_ok h0
    subst hm
    rfl
  apply list_eq_of_getD
  · rw [runOutputs_length, runOutputs_length]
  · intro k hk
    rw [runOutputs_length] at hk
    have h1 := run_spec samples m.reset [] hIr hWr hs k hk
    have h2 := run_spec samples m0 [] hI0 hW0 hs k hk
    rw [reset_length] at h1
    rw [hlen0] at h2
    rw [h1, h2]

theorem C5_witness :
    runOutputs ((⟨2, [FVal.pinf, FVal.pinf], 0, 0⟩ : Minimum).reset)
        [FVal.val 4, FVal.val 2]
      = runOutputs ⟨2, [FVal.pinf, FVal.pinf], 0, 0⟩ [FVal.val 4, FVal.val 2] :=
  C5_amended_reset_replay ⟨2, [FVal.pinf, FVal.pinf], 0, 0⟩
    (Reachable.new 2 ⟨2, [FVal.pinf, FVal.pinf], 0, 0⟩ rfl)
    ⟨2, [FVal.pinf, FVal.pinf], 0, 0⟩ rfl [FVal.val 4, FVal.val 2] (by decide)

/-- Claim C6: construction fails with the InvalidParameter error kind
exactly when the requested length is 0, and for every positive length
it succeeds with `length` sentinel slots and both indices at 0. -/
theorem C6_new (L : Nat) :
    (L = 0 → Minimum.new L = Except.error ErrorKind.InvalidParameter) ∧
    (1 ≤ L → Minimum.new L = Except.ok ⟨L, List.replicate L FVal.pinf, 0, 0⟩) := by
  constructor
  · intro h
    subst h
    rfl
  · intro h
    unfold Minimum.new
    rw [if_neg (by omega)]

theorem C6_witness :
    Minimum.new 0 = Except.error ErrorKind.InvalidParameter ∧
    Minimum.new 3 = Except.ok (⟨3, List.replicate 3 FVal.pinf, 0, 0⟩ : Minimum) :=
  ⟨(C6_new 0).1 rfl, (C6_new 3).2 (by omega)⟩

/-- Claim C7: on every reachable tracker state, `min_index < length`,
`cur_index < length`, the buffer has exactly `length` slots (so the
buffer accesses `next` performs — the write at the cursor, the read at
`min_index` and the read at the resulting minimum index — are in
bounds), and `length ≥ 1`. The bounds hold initially and are preserved
by `next` (any input, NaN included) and `reset`. -/
theorem C7_bounds_invariant (m : Minimum) (h : Reachable m) :
    m.min_index < m.length ∧ m.cur_index < m.length ∧
    m.vec.length = m.length ∧ 1 ≤ m.length :=
  ⟨(reachable_bounds h).min_lt, (reachable_bounds h).cur_lt,
    (reachable_bounds h).vlen, (reachable_bounds h).len_pos⟩

theorem C7_witness :
    (Minimum.next ⟨2, [FVal.pinf, FVal.pinf], 0, 0⟩ FVal.nan).1.min_index <
      (Minimum.next ⟨2, [FVal.pinf, FVal.pinf], 0, 0⟩ FVal.nan).1.length ∧
    (Minimum.next ⟨2, [FVal.pinf, FVal.pinf], 0, 0⟩ FVal.nan).1.cur_index <
      (Minimum.next ⟨2, [FVal.pinf, FVal.pinf], 0, 0⟩ FVal.nan).1.length ∧
    (Minimum.next ⟨2, [FVal.pinf, FVal.pinf], 0, 0⟩ FVal.nan).1.vec.length =
      (Minimum.next ⟨2, [FVal.pinf, FVal.pinf], 0, 0⟩ FVal.nan).1.length ∧
    1 ≤ (Minimum.next ⟨2, [FVal.pinf, FVal.pinf], 0, 0⟩ FVal.nan).1.length :=
  C7_bounds_invariant _
    (Reachable.next _ _ (Reachable.new 2 ⟨2, [FVal.pinf, FVal.pinf], 0, 0⟩ rfl))

/-- Claim C8: updating the tracker with a record that offers a `low`
accessor returns the same value and leaves the tracker in the same
state as updating it with the scalar obtained from the accessor. -/
theorem C8_low_delegates {α : Type} [Low α] (m : Minimum) (r : α) :
    m.nextLow r = m.next (Low.low r) := rfl

/-- Claim C9: default construction is exactly the length-14 explicit
construction: `new 14` succeeds and returns the default tracker's
state, so all subsequent behavior (a function of the state) coincides. -/
theorem C9_default_is_new14 : Minimum.new 14 = Except.ok Minimum.default := rfl

/-- Claim C10: `reset` modifies only the buffer contents: the fields
`length`, `min_index` and `cur_index` hold exactly the same values
after `reset()` as before it (on every state, reachable or not). -/
theorem C10_reset_frame (m : Minimum) :
    (m.reset).length = m.length ∧ (m.reset).min_index = m.min_index ∧
    (m.reset).cur_index = m.cur_index :=
  ⟨rfl, rfl, rfl⟩
